import Mathlib

/-!
Verification of the newscrypt subtitle engine
(`src/services/subtitle_service.py`, constants from `src/newscrypt/config.py`).

Python strings are embedded as `List Char`; Python floats are embedded as
exact rationals `ℚ` (every constant in the source is a decimal literal, so
all arithmetic is exact under this embedding).
-/

namespace Newscrypt

/- The Batteries rational operations are irreducible by default, which
blocks `decide`'s evaluation; restore the default transparency locally so
closed rational facts can be decided. -/
attribute [local semireducible] Rat.mul Rat.inv Rat.add Rat.sub

/-! ## Tokenization: Python `str.split()` (split on whitespace runs) -/

/-- Split a character list at every whitespace character, keeping empty
tokens; the result is always nonempty (Python `s.split(ws_char)` shape). -/
def splitWsAux : List Char → List (List Char)
  | [] => [[]]
  | c :: cs =>
    let r := splitWsAux cs
    if c.isWhitespace then [] :: r
    else (c :: r.headI) :: r.tail

/-- Python `str.split()` with no arguments: whitespace tokenization,
empty tokens discarded. -/
def splitWs (cs : List Char) : List (List Char) :=
  (splitWsAux cs).filter (fun w => !w.isEmpty)

/-- Python `sep.join(words)` for a one-character separator. -/
def joinSep (sep : Char) : List (List Char) → List Char
  | [] => []
  | [w] => w
  | w :: ws => w ++ sep :: joinSep sep ws

/-! ## Duration Estimator (`SubtitleService._estimate_word_duration`) -/

/-- The characters of the Python string `'.,!?;:'`. -/
def punctuationChars : List Char := ['.', ',', '!', '?', ';', ':']

/-- The characters of the Python strip set `'.,!?;:"'`. -/
def stripSet : List Char := ['.', ',', '!', '?', ';', ':', '"']

/-- Python `word.strip('.,!?;:"')`: drop those characters from both ends. -/
def pyStrip (cs : List Char) : List Char :=
  ((cs.dropWhile (fun c => decide (c ∈ stripSet))).reverse.dropWhile
      (fun c => decide (c ∈ stripSet))).reverse

/-- Membership test in the vowel string `'aeiou'`. -/
def isVowel (c : Char) : Bool := decide (c ∈ (['a', 'e', 'i', 'o', 'u'] : List Char))

/-- The syllable-counting loop: count transitions into a vowel, given the
`prev_was_vowel` flag. -/
def syllableLoop : List Char → Bool → Nat
  | [], _ => 0
  | c :: cs, prev =>
    (if isVowel c && !prev then 1 else 0) + syllableLoop cs (isVowel c)

/-- Python `any(p in word for p in '.,!?;:')`. -/
def containsPunct (w : List Char) : Bool :=
  w.any (fun c => decide (c ∈ punctuationChars))

/-- The fixed closed set of fast function words from the source. -/
def fastWords : List (List Char) :=
  (["a", "an", "and", "the", "is", "in", "on", "at", "to", "of", "it", "or"].map
    String.toList)

/-- `SubtitleService._estimate_word_duration`: estimate speaking duration of
a word token, in seconds. -/
def _estimate_word_duration (word : List Char) : ℚ :=
  let base : ℚ := 15 / 100
  let w := pyStrip (word.map Char.toLower)
  if w.isEmpty then 1 / 10
  else
    let syllables := max 1 (syllableLoop w false)
    let d1 := base * (syllables : ℚ)
    let d2 := if 8 ≤ w.length then d1 * (12 / 10) else d1
    let d3 := if w ∈ fastWords then d2 * (7 / 10) else d2
    if containsPunct w then d3 + 2 / 10 else d3

/-- Modelled from the spec: the estimator's steps 1-5 only (normalization,
syllable count, length and fast-word adjustment) without the final
punctuation-pause step. Used to compare the source estimator against the
spec's description of when the 0.2s pause is added. -/
def durationPrePause (word : List Char) : ℚ :=
  let base : ℚ := 15 / 100
  let w := pyStrip (word.map Char.toLower)
  if w.isEmpty then 1 / 10
  else
    let syllables := max 1 (syllableLoop w false)
    let d1 := base * (syllables : ℚ)
    let d2 := if 8 ≤ w.length then d1 * (12 / 10) else d1
    if w ∈ fastWords then d2 * (7 / 10) else d2

/-! ## Subtitle Chunker (`SubtitleService.create_subtitle_chunks`) -/

/-- The per-word timing dict built in the first loop of
`create_subtitle_chunks`. -/
structure WordTiming where
  word : List Char
  duration : ℚ
  start_time : ℚ
  end_time : ℚ
deriving Repr, DecidableEq

/-- The subtitle chunk dict emitted by `create_subtitle_chunks`. -/
structure SubtitleChunk where
  text : List Char
  start_time : ℚ
  end_time : ℚ
  duration : ℚ
deriving Repr, DecidableEq

/-- `config.SUBTITLE_CHUNK_DURATION` (seconds per chunk). -/
def SUBTITLE_CHUNK_DURATION : ℚ := 3

/-- `config.SUBTITLE_MAX_WORDS_PER_CHUNK`. -/
def SUBTITLE_MAX_WORDS_PER_CHUNK : Nat := 6

/-- `config.SUBTITLE_FONTSIZE`. -/
def SUBTITLE_FONTSIZE : Nat := 80

/-- The first loop of `create_subtitle_chunks`: build the provisional
timeline, threading the running `cumulative_time`. -/
def buildTimings (cumulative : ℚ) : List (List Char) → List WordTiming
  | [] => []
  | w :: ws =>
    let d := _estimate_word_duration w
    ⟨w, d, cumulative, cumulative + d⟩ :: buildTimings (cumulative + d) ws

/-- The value of `cumulative_time` after the first loop: the sum of all
estimated word durations. -/
def cumulativeTime (words : List (List Char)) : ℚ :=
  (words.map _estimate_word_duration).sum

/-- One step of the scaling loop: multiply all three time fields by the
scale factor. -/
def scaleTiming (k : ℚ) (t : WordTiming) : WordTiming :=
  ⟨t.word, t.duration * k, t.start_time * k, t.end_time * k⟩

/-- The provisional timeline after the scaling step: scaled by
`total_duration / cumulative_time` when `cumulative_time > 0`, untouched
otherwise. -/
def scaledTimings (words : List (List Char)) (total_duration : ℚ) : List WordTiming :=
  let cum := cumulativeTime words
  if 0 < cum then (buildTimings 0 words).map (scaleTiming (total_duration / cum))
  else buildTimings 0 words

/-- The `should_end_chunk` condition, evaluated after the current word has
been appended to `current_chunk`. -/
def shouldEndChunk (t : WordTiming) (rest : List WordTiming)
    (currentChunk : List (List Char)) (chunkStart : ℚ) : Bool :=
  decide (SUBTITLE_CHUNK_DURATION ≤ t.end_time - chunkStart) ||
  containsPunct t.word ||
  decide (SUBTITLE_MAX_WORDS_PER_CHUNK ≤ currentChunk.length) ||
  rest.isEmpty

/-- The grouping loop of `create_subtitle_chunks`: fold over the timings
carrying `current_chunk` and `chunk_start`; on ending a chunk, the next
`chunk_start` becomes the next word's start time. -/
def groupChunks : List WordTiming → List (List Char) → ℚ → List SubtitleChunk
  | [], _, _ => []
  | t :: rest, currentChunk, chunkStart =>
    let cur := currentChunk ++ [t.word]
    if shouldEndChunk t rest cur chunkStart then
      ⟨joinSep ' ' cur, chunkStart, t.end_time, t.end_time - chunkStart⟩ ::
        (match rest with
         | [] => []
         | next :: rest' => groupChunks (next :: rest') [] next.start_time)
    else
      groupChunks rest cur chunkStart

/-- `SubtitleService.create_subtitle_chunks`. -/
def create_subtitle_chunks (script_text : List Char) (total_duration : ℚ) :
    List SubtitleChunk :=
  groupChunks (scaledTimings (splitWs script_text) total_duration) [] 0

/-! ## Lemmas about tokenization and joining -/

theorem splitWsAux_ne_nil (cs : List Char) : splitWsAux cs ≠ [] := by
  induction cs with
  | nil => simp [splitWsAux]
  | cons c cs ih =>
    simp only [splitWsAux]
    split <;> simp

theorem splitWsAux_eq_headI_cons (cs : List Char) :
    splitWsAux cs = (splitWsAux cs).headI :: (splitWsAux cs).tail := by
  cases h : splitWsAux cs with
  | nil => exact absurd h (splitWsAux_ne_nil cs)
  | cons a l => rfl

theorem splitWsAux_append (w cs : List Char) (hw : ∀ c ∈ w, c.isWhitespace = false) :
    splitWsAux (w ++ cs) =
      (w ++ (splitWsAux cs).headI) :: (splitWsAux cs).tail := by
  induction w with
  | nil => simpa using splitWsAux_eq_headI_cons cs
  | cons c w ih =>
    have hc : c.isWhitespace = false := hw c (List.mem_cons_self _ _)
    have hw' : ∀ x ∈ w, x.isWhitespace = false :=
      fun x hx => hw x (List.mem_cons_of_mem _ hx)
    simp only [List.cons_append, splitWsAux, hc]
    simp only [Bool.false_eq_true, if_false, List.append_eq]
    rw [ih hw']
    simp

theorem splitWsAux_wsfree (cs : List Char) :
    ∀ w ∈ splitWsAux cs, ∀ c ∈ w, c.isWhitespace = false := by
  induction cs with
  | nil =>
    intro w hw
    simp [splitWsAux] at hw
    subst hw
    simp
  | cons c cs ih =>
    intro w hw
    simp only [splitWsAux] at hw
    cases hws : c.isWhitespace with
    | true =>
      rw [hws] at hw
      simp only [if_true] at hw
      rcases List.mem_cons.mp hw with h | h
      · subst h; simp
      · exact ih w h
    | false =>
      rw [hws] at hw
      simp only [Bool.false_eq_true, if_false] at hw
      rcases List.mem_cons.mp hw with h | h
      · subst h
        intro x hx
        rcases List.mem_cons.mp hx with h' | h'
        · subst h'; exact hws
        · refine ih _ ?_ x h'
          rw [splitWsAux_eq_headI_cons cs]
          exact List.mem_cons_self _ _
      · refine ih w ?_ -- w is in the tail of the recursive result
        rw [splitWsAux_eq_headI_cons cs]
        exact List.mem_cons_of_mem _ h

theorem splitWs_sound (cs : List Char) :
    ∀ w ∈ splitWs cs, w ≠ [] ∧ ∀ c ∈ w, c.isWhitespace = false := by
  intro w hw
  have h1 := List.mem_filter.mp hw
  refine ⟨?_, splitWsAux_wsfree cs w h1.1⟩
  have := h1.2
  simpa using this

theorem joinSep_cons_cons (s : Char) (a b : List Char) (l : List (List Char)) :
    joinSep s (a :: b :: l) = a ++ s :: joinSep s (b :: l) := rfl

theorem joinSep_cons_of_ne_nil (s : Char) (a : List Char) (l : List (List Char))
    (hl : l ≠ []) : joinSep s (a :: l) = a ++ s :: joinSep s l := by
  cases l with
  | nil => exact absurd rfl hl
  | cons b l => rfl

theorem splitWs_joinSep (ws : List (List Char))
    (h : ∀ w ∈ ws, w ≠ [] ∧ ∀ c ∈ w, c.isWhitespace = false) :
    splitWs (joinSep ' ' ws) = ws := by
  induction ws with
  | nil => rfl
  | cons w ws ih =>
    have hw := h w (List.mem_cons_self _ _)
    have hws : ∀ x ∈ ws, x ≠ [] ∧ ∀ c ∈ x, c.isWhitespace = false :=
      fun x hx => h x (List.mem_cons_of_mem _ hx)
    cases ws with
    | nil =>
      show splitWs (joinSep ' ' [w]) = [w]
      have : joinSep ' ' [w] = w := rfl
      rw [this]
      unfold splitWs
      have haux : splitWsAux w = (w ++ ([] : List Char)) :: ([] : List (List Char)) := by
        have := splitWsAux_append w [] hw.2
        simpa [splitWsAux] using this
      rw [haux]
      simp [List.isEmpty_iff, hw.1]
    | cons w' ws' =>
      rw [joinSep_cons_cons]
      unfold splitWs
      have hsp : (' ' : Char).isWhitespace = true := by decide
      have haux : splitWsAux (w ++ ' ' :: joinSep ' ' (w' :: ws')) =
          (w ++ ([] : List Char)) :: splitWsAux (joinSep ' ' (w' :: ws')) := by
        have h1 := splitWsAux_append w (' ' :: joinSep ' ' (w' :: ws')) hw.2
        have h2 : splitWsAux (' ' :: joinSep ' ' (w' :: ws')) =
            [] :: splitWsAux (joinSep ' ' (w' :: ws')) := by
          simp [splitWsAux, hsp]
        rw [h1, h2]
        simp
      rw [haux]
      simp only [List.append_nil, List.filter_cons]
      rw [show (!w.isEmpty) = true by simp [List.isEmpty_iff, hw.1]]
      simp only [if_true]
      have := ih hws
      unfold splitWs at this
      rw [this]

theorem joinSep_append (s : Char) (a b : List (List Char)) (ha : a ≠ []) (hb : b ≠ []) :
    joinSep s (a ++ b) = joinSep s a ++ s :: joinSep s b := by
  induction a with
  | nil => exact absurd rfl ha
  | cons x a ih =>
    cases a with
    | nil =>
      simp only [List.cons_append, List.nil_append]
      rw [joinSep_cons_of_ne_nil s x b hb]
      rfl
    | cons y a' =>
      rw [List.cons_append,
        joinSep_cons_of_ne_nil s x ((y :: a') ++ b) (by simp),
        ih (by simp), joinSep_cons_cons, List.append_assoc]
      simp

theorem flatten_ne_nil_of_mem (gs : List (List (List Char)))
    (h : ∀ g ∈ gs, g ≠ []) (hgs : gs ≠ []) : gs.flatten ≠ [] := by
  cases gs with
  | nil => exact absurd rfl hgs
  | cons g gs' =>
    have hg := h g (List.mem_cons_self _ _)
    cases g with
    | nil => exact absurd rfl hg
    | cons x g' => simp

theorem joinSep_map_joinSep (gs : List (List (List Char)))
    (h : ∀ g ∈ gs, g ≠ []) :
    joinSep ' ' (gs.map (joinSep ' ')) = joinSep ' ' gs.flatten := by
  induction gs with
  | nil => rfl
  | cons g gs' ih =>
    have hg := h g (List.mem_cons_self _ _)
    have hgs' : ∀ x ∈ gs', x ≠ [] := fun x hx => h x (List.mem_cons_of_mem _ hx)
    cases gs' with
    | nil => simp [joinSep]
    | cons g' gs'' =>
      have hflat : (g' :: gs'').flatten ≠ [] :=
        flatten_ne_nil_of_mem _ hgs' (by simp)
      rw [List.map_cons, joinSep_cons_of_ne_nil ' ' _ _ (by simp), ih hgs']
      rw [show (g :: g' :: gs'').flatten = g ++ (g' :: gs'').flatten by simp]
      rw [joinSep_append ' ' g ((g' :: gs'').flatten) hg hflat]

/-! ## Lemmas about the estimator and the provisional timeline -/

theorem estimate_pos (word : List Char) : 0 < _estimate_word_duration word := by
  simp only [_estimate_word_duration]
  split
  · norm_num
  · have h1 : (1 : ℚ) ≤
        ((max 1 (syllableLoop (pyStrip (word.map Char.toLower)) false) : ℕ) : ℚ) := by
      exact_mod_cast Nat.le_max_left 1 _
    split <;> split <;> split <;> nlinarith [h1]

theorem cumulativeTime_cons (w : List Char) (ws : List (List Char)) :
    cumulativeTime (w :: ws) = _estimate_word_duration w + cumulativeTime ws := by
  simp [cumulativeTime]

theorem cumulativeTime_nonneg (ws : List (List Char)) : 0 ≤ cumulativeTime ws := by
  induction ws with
  | nil => simp [cumulativeTime]
  | cons w ws ih =>
    rw [cumulativeTime_cons]
    have := estimate_pos w
    linarith

theorem cumulativeTime_pos (ws : List (List Char)) (h : ws ≠ []) :
    0 < cumulativeTime ws := by
  cases ws with
  | nil => exact absurd rfl h
  | cons w ws =>
    rw [cumulativeTime_cons]
    have h1 := estimate_pos w
    have h2 := cumulativeTime_nonneg ws
    linarith

/-- Adjacency of consecutive word timings: the next starts where the
previous ends. -/
def timingAdj (a b : WordTiming) : Prop := b.start_time = a.end_time

/-- Adjacency of consecutive chunks: the next starts where the previous
ends. -/
def chunkAdj (a b : SubtitleChunk) : Prop := b.start_time = a.end_time

instance : DecidableRel timingAdj := fun a b => by
  unfold timingAdj; infer_instance

instance : DecidableRel chunkAdj := fun a b => by
  unfold chunkAdj; infer_instance

theorem buildTimings_cons (c : ℚ) (w : List Char) (ws : List (List Char)) :
    buildTimings c (w :: ws) =
      ⟨w, _estimate_word_duration w, c, c + _estimate_word_duration w⟩ ::
        buildTimings (c + _estimate_word_duration w) ws := rfl

theorem buildTimings_map_word (c : ℚ) (ws : List (List Char)) :
    (buildTimings c ws).map WordTiming.word = ws := by
  induction ws generalizing c with
  | nil => rfl
  | cons w ws ih => rw [buildTimings_cons, List.map_cons, ih]

theorem buildTimings_ne_nil (c : ℚ) (ws : List (List Char)) (h : ws ≠ []) :
    buildTimings c ws ≠ [] := by
  cases ws with
  | nil => exact absurd rfl h
  | cons w ws => rw [buildTimings_cons]; simp

theorem buildTimings_chain (c : ℚ) (ws : List (List Char)) :
    List.Chain' timingAdj (buildTimings c ws) := by
  induction ws generalizing c with
  | nil => simp [buildTimings]
  | cons w ws ih =>
    rw [buildTimings_cons]
    refine List.chain'_cons'.mpr ⟨?_, ih _⟩
    intro b hb
    cases ws with
    | nil => simp [buildTimings] at hb
    | cons w' ws' =>
      rw [buildTimings_cons] at hb
      simp only [List.head?_cons, Option.mem_some_iff] at hb
      subst hb
      rfl

theorem buildTimings_mem (c : ℚ) (ws : List (List Char)) :
    ∀ t ∈ buildTimings c ws,
      t.duration = _estimate_word_duration t.word ∧
      t.end_time = t.start_time + t.duration := by
  induction ws generalizing c with
  | nil => simp [buildTimings]
  | cons w ws ih =>
    intro t ht
    rw [buildTimings_cons] at ht
    rcases List.mem_cons.mp ht with h | h
    · subst h; exact ⟨rfl, rfl⟩
    · exact ih _ t h

theorem buildTimings_getLast (c : ℚ) (ws : List (List Char)) (h : ws ≠ []) :
    ∃ t, (buildTimings c ws).getLast? = some t ∧
      t.end_time = c + cumulativeTime ws := by
  induction ws generalizing c with
  | nil => exact absurd rfl h
  | cons w ws ih =>
    cases ws with
    | nil =>
      refine ⟨⟨w, _estimate_word_duration w, c, c + _estimate_word_duration w⟩, ?_, ?_⟩
      · rw [buildTimings_cons]; rfl
      · simp [cumulativeTime]
    | cons w' ws' =>
      obtain ⟨t, h1, h2⟩ := ih (c + _estimate_word_duration w) (by simp)
      refine ⟨t, ?_, ?_⟩
      · rw [buildTimings_cons, buildTimings_cons, List.getLast?_cons_cons,
          ← buildTimings_cons]
        exact h1
      · simp only [h2, cumulativeTime_cons]
        ring

/-! ## Lemmas about the scaled timeline -/

theorem scaledTimings_map_word (ws : List (List Char)) (d : ℚ) :
    (scaledTimings ws d).map WordTiming.word = ws := by
  simp only [scaledTimings]
  split
  · rw [List.map_map]
    have : WordTiming.word ∘ scaleTiming (d / cumulativeTime ws) = WordTiming.word := by
      funext t; rfl
    rw [this, buildTimings_map_word]
  · exact buildTimings_map_word 0 ws

theorem scaledTimings_ne_nil (ws : List (List Char)) (d : ℚ) (h : ws ≠ []) :
    scaledTimings ws d ≠ [] := by
  intro hcon
  have := scaledTimings_map_word ws d
  rw [hcon] at this
  exact h this.symm

theorem scaledTimings_chain (ws : List (List Char)) (d : ℚ) :
    List.Chain' timingAdj (scaledTimings ws d) := by
  simp only [scaledTimings]
  split
  · rw [List.chain'_map]
    refine (buildTimings_chain 0 ws).imp ?_
    intro a b hab
    show (scaleTiming _ b).start_time = (scaleTiming _ a).end_time
    simp only [scaleTiming]
    rw [show b.start_time = a.end_time from hab]
  · exact buildTimings_chain 0 ws

theorem scaledTimings_mem (ws : List (List Char)) (d : ℚ) :
    ∀ t ∈ scaledTimings ws d, t.end_time = t.start_time + t.duration := by
  simp only [scaledTimings]
  split
  · intro t ht
    obtain ⟨t', ht', rfl⟩ := List.mem_map.mp ht
    obtain ⟨_, h2⟩ := buildTimings_mem 0 ws t' ht'
    show t'.end_time * _ = t'.start_time * _ + t'.duration * _
    rw [h2]; ring
  · intro t ht
    exact (buildTimings_mem 0 ws t ht).2

theorem scaledTimings_duration_nonneg (ws : List (List Char)) (d : ℚ) (hd : 0 ≤ d) :
    ∀ t ∈ scaledTimings ws d, 0 ≤ t.duration := by
  simp only [scaledTimings]
  split
  · rename_i hcum
    intro t ht
    obtain ⟨t', ht', rfl⟩ := List.mem_map.mp ht
    obtain ⟨h1, _⟩ := buildTimings_mem 0 ws t' ht'
    show 0 ≤ t'.duration * (d / cumulativeTime ws)
    have hp : 0 < t'.duration := h1 ▸ estimate_pos t'.word
    have : 0 ≤ d / cumulativeTime ws := div_nonneg hd (le_of_lt hcum)
    positivity
  · intro t ht
    obtain ⟨h1, _⟩ := buildTimings_mem 0 ws t ht
    exact le_of_lt (h1 ▸ estimate_pos t.word)

theorem scaledTimings_start_le_end (ws : List (List Char)) (d : ℚ) (hd : 0 ≤ d) :
    ∀ t ∈ scaledTimings ws d, t.start_time ≤ t.end_time := by
  intro t ht
  have h1 := scaledTimings_mem ws d t ht
  have h2 := scaledTimings_duration_nonneg ws d hd t ht
  linarith

theorem scaledTimings_head (ws : List (List Char)) (d : ℚ) (h : ws ≠ []) :
    ∃ t rest, scaledTimings ws d = t :: rest ∧ t.start_time = 0 := by
  cases ws with
  | nil => exact absurd rfl h
  | cons w ws' =>
    simp only [scaledTimings]
    split
    · rw [buildTimings_cons, List.map_cons]
      exact ⟨_, _, rfl, by show (0 : ℚ) * _ = 0; ring⟩
    · rw [buildTimings_cons]
      exact ⟨_, _, rfl, rfl⟩

theorem scaledTimings_getLast (ws : List (List Char)) (d : ℚ) (h : ws ≠ []) :
    ∃ t, (scaledTimings ws d).getLast? = some t ∧ t.end_time = d := by
  have hcum := cumulativeTime_pos ws h
  obtain ⟨t, h1, h2⟩ := buildTimings_getLast 0 ws h
  simp only [scaledTimings]
  rw [if_pos hcum]
  refine ⟨scaleTiming (d / cumulativeTime ws) t, ?_, ?_⟩
  · rw [List.getLast?_map, h1]; rfl
  · show t.end_time * (d / cumulativeTime ws) = d
    rw [h2, zero_add, mul_comm]
    exact div_mul_cancel₀ d (ne_of_gt hcum)

theorem scaledTimings_zero (ws : List (List Char)) (h : ws ≠ []) :
    ∀ t ∈ scaledTimings ws 0, t.start_time = 0 ∧ t.end_time = 0 ∧ t.duration = 0 := by
  have hcum := cumulativeTime_pos ws h
  simp only [scaledTimings]
  rw [if_pos hcum]
  intro t ht
  obtain ⟨t', _, rfl⟩ := List.mem_map.mp ht
  refine ⟨?_, ?_, ?_⟩ <;> show _ * ((0 : ℚ) / _) = 0 <;> rw [zero_div, mul_zero]

/-! ## Lemmas about the grouping loop -/

theorem shouldEndChunk_last (t : WordTiming) (cur : List (List Char)) (cs : ℚ) :
    shouldEndChunk t [] cur cs = true := by
  simp [shouldEndChunk]

theorem groupChunks_cons_nil (t : WordTiming) (cur : List (List Char)) (cs : ℚ) :
    groupChunks [t] cur cs =
      [⟨joinSep ' ' (cur ++ [t.word]), cs, t.end_time, t.end_time - cs⟩] := by
  simp [groupChunks, shouldEndChunk_last]

theorem groupChunks_cons_cons (t next : WordTiming) (rest' : List WordTiming)
    (cur : List (List Char)) (cs : ℚ) :
    groupChunks (t :: next :: rest') cur cs =
      if shouldEndChunk t (next :: rest') (cur ++ [t.word]) cs then
        ⟨joinSep ' ' (cur ++ [t.word]), cs, t.end_time, t.end_time - cs⟩ ::
          groupChunks (next :: rest') [] next.start_time
      else groupChunks (next :: rest') (cur ++ [t.word]) cs := rfl

theorem shouldEndChunk_false (t : WordTiming) (rest : List WordTiming)
    (cur : List (List Char)) (cs : ℚ)
    (h : shouldEndChunk t rest cur cs = false) :
    ¬ SUBTITLE_CHUNK_DURATION ≤ t.end_time - cs ∧
    containsPunct t.word = false ∧
    cur.length < SUBTITLE_MAX_WORDS_PER_CHUNK ∧
    rest ≠ [] := by
  simp only [shouldEndChunk, Bool.or_eq_false_iff, decide_eq_false_iff_not,
    List.isEmpty_eq_false, not_le] at h
  exact ⟨not_le.mpr h.1.1.1, h.1.1.2, h.1.2, h.2⟩

theorem groupChunks_ne_nil (ts : List WordTiming) :
    ∀ cur cs, ts ≠ [] → groupChunks ts cur cs ≠ [] := by
  induction ts with
  | nil => intro _ _ h; exact absurd rfl h
  | cons t rest ih =>
    intro cur cs _
    cases rest with
    | nil => rw [groupChunks_cons_nil]; simp
    | cons next rest' =>
      rw [groupChunks_cons_cons]
      cases hend : shouldEndChunk t (next :: rest') (cur ++ [t.word]) cs
      · simp only [Bool.false_eq_true, if_false]
        exact ih _ _ (by simp)
      · simp

theorem groupChunks_head_start (ts : List WordTiming) :
    ∀ cur cs, ts ≠ [] →
      ∃ c rest, groupChunks ts cur cs = c :: rest ∧ c.start_time = cs := by
  induction ts with
  | nil => intro _ _ h; exact absurd rfl h
  | cons t rest ih =>
    intro cur cs _
    cases rest with
    | nil => rw [groupChunks_cons_nil]; exact ⟨_, _, rfl, rfl⟩
    | cons next rest' =>
      rw [groupChunks_cons_cons]
      cases hend : shouldEndChunk t (next :: rest') (cur ++ [t.word]) cs
      · simp only [Bool.false_eq_true, if_false]
        exact ih _ _ (by simp)
      · simp only [if_true]
        exact ⟨_, _, rfl, rfl⟩

theorem groupChunks_getLast (ts : List WordTiming) :
    ∀ cur cs tl, ts.getLast? = some tl →
      ∃ c, (groupChunks ts cur cs).getLast? = some c ∧ c.end_time = tl.end_time := by
  induction ts with
  | nil => intro _ _ _ h; simp at h
  | cons t rest ih =>
    intro cur cs tl hlast
    cases rest with
    | nil =>
      rw [groupChunks_cons_nil]
      simp only [List.getLast?_singleton, Option.some_inj] at hlast ⊢
      exact ⟨_, rfl, by rw [← hlast]⟩
    | cons next rest' =>
      rw [List.getLast?_cons_cons] at hlast
      rw [groupChunks_cons_cons]
      cases hend : shouldEndChunk t (next :: rest') (cur ++ [t.word]) cs
      · simp only [Bool.false_eq_true, if_false]
        exact ih _ _ _ hlast
      · simp only [if_true]
        obtain ⟨c, h1, h2⟩ := ih ([] : List (List Char)) next.start_time tl hlast
        refine ⟨c, ?_, h2⟩
        obtain ⟨c0, rest0, heq⟩ :
            ∃ c0 rest0, groupChunks (next :: rest') [] next.start_time = c0 :: rest0 := by
          cases hgc : groupChunks (next :: rest') [] next.start_time with
          | nil => exact absurd hgc (groupChunks_ne_nil _ _ _ (by simp))
          | cons c0 rest0 => exact ⟨c0, rest0, rfl⟩
        rw [heq, List.getLast?_cons_cons, ← heq]
        exact h1

theorem groupChunks_sum_duration (ts : List WordTiming) :
    ∀ cur cs tl, List.Chain' timingAdj ts → ts.getLast? = some tl →
      ((groupChunks ts cur cs).map SubtitleChunk.duration).sum = tl.end_time - cs := by
  induction ts with
  | nil => intro _ _ _ _ h; simp at h
  | cons t rest ih =>
    intro cur cs tl hchain hlast
    cases rest with
    | nil =>
      rw [groupChunks_cons_nil]
      simp only [List.getLast?_singleton, Option.some_inj] at hlast
      simp [← hlast]
    | cons next rest' =>
      have hnext : next.start_time = t.end_time := (List.chain'_cons.mp hchain).1
      have hchain' := (List.chain'_cons.mp hchain).2
      rw [List.getLast?_cons_cons] at hlast
      rw [groupChunks_cons_cons]
      cases hend : shouldEndChunk t (next :: rest') (cur ++ [t.word]) cs
      · simp only [Bool.false_eq_true, if_false]
        exact ih _ _ _ hchain' hlast
      · simp only [if_true, List.map_cons, List.sum_cons]
        rw [ih ([] : List (List Char)) next.start_time tl hchain' hlast, hnext]
        ring

theorem groupChunks_chain (ts : List WordTiming) :
    ∀ cur cs, List.Chain' timingAdj ts →
      List.Chain' chunkAdj (groupChunks ts cur cs) := by
  induction ts with
  | nil => intro _ _ _; simp [groupChunks]
  | cons t rest ih =>
    intro cur cs hchain
    cases rest with
    | nil => rw [groupChunks_cons_nil]; simp
    | cons next rest' =>
      have hnext : next.start_time = t.end_time := (List.chain'_cons.mp hchain).1
      have hchain' := (List.chain'_cons.mp hchain).2
      rw [groupChunks_cons_cons]
      cases hend : shouldEndChunk t (next :: rest') (cur ++ [t.word]) cs
      · simp only [Bool.false_eq_true, if_false]
        exact ih _ _ hchain'
      · simp only [if_true]
        refine List.chain'_cons'.mpr ⟨?_, ih _ _ hchain'⟩
        intro y hy
        obtain ⟨c0, rest0, heq, hstart⟩ :=
          groupChunks_head_start (next :: rest') ([] : List (List Char))
            next.start_time (by simp)
        rw [heq] at hy
        simp only [List.head?_cons, Option.mem_some_iff] at hy
        subst hy
        show c0.start_time = t.end_time
        rw [hstart, hnext]

theorem groupChunks_start_le_end (ts : List WordTiming) :
    ∀ cur cs, List.Chain' timingAdj ts →
      (∀ t ∈ ts, t.start_time ≤ t.end_time) →
      (∀ t rest', ts = t :: rest' → cs ≤ t.start_time) →
      ∀ c ∈ groupChunks ts cur cs,
        c.start_time ≤ c.end_time ∧ c.duration = c.end_time - c.start_time := by
  induction ts with
  | nil => intro _ _ _ _ _ c hc; simp [groupChunks] at hc
  | cons t rest ih =>
    intro cur cs hchain hmem hcs c hc
    have hcs' : cs ≤ t.start_time := hcs t rest rfl
    have hte : t.start_time ≤ t.end_time := hmem t (List.mem_cons_self _ _)
    cases rest with
    | nil =>
      rw [groupChunks_cons_nil] at hc
      simp only [List.mem_singleton] at hc
      subst hc
      exact ⟨by simp; linarith, rfl⟩
    | cons next rest' =>
      have hnext : next.start_time = t.end_time := (List.chain'_cons.mp hchain).1
      have hchain' := (List.chain'_cons.mp hchain).2
      have hmem' : ∀ x ∈ next :: rest', x.start_time ≤ x.end_time :=
        fun x hx => hmem x (List.mem_cons_of_mem _ hx)
      rw [groupChunks_cons_cons] at hc
      cases hend : shouldEndChunk t (next :: rest') (cur ++ [t.word]) cs
      · rw [hend] at hc
        simp only [Bool.false_eq_true, if_false] at hc
        refine ih _ _ hchain' hmem' ?_ c hc
        intro x rest'' heq
        injection heq with h1 h2
        rw [← h1, hnext]
        linarith
      · rw [hend] at hc
        simp only [if_true] at hc
        rcases List.mem_cons.mp hc with h | h
        · subst h
          exact ⟨by simp; linarith, rfl⟩
        · refine ih _ _ hchain' hmem' ?_ c h
          intro x rest'' heq
          injection heq with h1 h2
          rw [← h1]

/-- Well-formedness of a word token: nonempty and whitespace-free (true of
every token produced by `splitWs`). -/
def GoodWord (w : List Char) : Prop := w ≠ [] ∧ ∀ c ∈ w, c.isWhitespace = false

instance : DecidablePred GoodWord := fun w => by
  unfold GoodWord; infer_instance

theorem goodWord_append (cur : List (List Char)) (w : List Char)
    (hcur : ∀ x ∈ cur, GoodWord x) (hw : GoodWord w) :
    ∀ x ∈ cur ++ [w], GoodWord x := by
  intro x hx
  rcases List.mem_append.mp hx with h | h
  · exact hcur x h
  · rw [List.mem_singleton.mp h]; exact hw

theorem groupChunks_flatten (ts : List WordTiming) :
    ∀ cur cs, ts ≠ [] →
      (∀ w ∈ cur, GoodWord w) →
      (∀ t ∈ ts, GoodWord t.word) →
      ((groupChunks ts cur cs).map (fun c => splitWs c.text)).flatten =
        cur ++ ts.map WordTiming.word := by
  induction ts with
  | nil => intro _ _ h; exact absurd rfl h
  | cons t rest ih =>
    intro cur cs _ hcur hts
    have htw : GoodWord t.word := hts t (List.mem_cons_self _ _)
    have hcur' : ∀ x ∈ cur ++ [t.word], GoodWord x := goodWord_append cur t.word hcur htw
    have hsplit : splitWs (joinSep ' ' (cur ++ [t.word])) = cur ++ [t.word] :=
      splitWs_joinSep _ (fun x hx => hcur' x hx)
    cases rest with
    | nil =>
      rw [groupChunks_cons_nil]
      simp only [List.map_cons, List.map_nil, List.flatten_cons, List.flatten_nil,
        List.append_nil]
      rw [hsplit]
    | cons next rest' =>
      have hts' : ∀ x ∈ next :: rest', GoodWord x.word :=
        fun x hx => hts x (List.mem_cons_of_mem _ hx)
      rw [groupChunks_cons_cons]
      cases hend : shouldEndChunk t (next :: rest') (cur ++ [t.word]) cs
      · simp only [Bool.false_eq_true, if_false]
        rw [ih _ _ (by simp) hcur' hts']
        simp
      · simp only [if_true, List.map_cons, List.flatten_cons]
        rw [hsplit, ih ([] : List (List Char)) next.start_time (by simp)
          (by intro x hx; simp at hx) hts']
        simp

theorem groupChunks_join_text (ts : List WordTiming) :
    ∀ cur cs, ts ≠ [] →
      joinSep ' ' ((groupChunks ts cur cs).map SubtitleChunk.text) =
        joinSep ' ' (cur ++ ts.map WordTiming.word) := by
  induction ts with
  | nil => intro _ _ h; exact absurd rfl h
  | cons t rest ih =>
    intro cur cs _
    cases rest with
    | nil =>
      rw [groupChunks_cons_nil]
      rfl
    | cons next rest' =>
      rw [groupChunks_cons_cons]
      cases hend : shouldEndChunk t (next :: rest') (cur ++ [t.word]) cs
      · simp only [Bool.false_eq_true, if_false]
        rw [ih _ _ (by simp)]
        simp
      · simp only [if_true, List.map_cons]
        have hrec := groupChunks_ne_nil (next :: rest') ([] : List (List Char))
          next.start_time (by simp)
        have hmapne : (groupChunks (next :: rest') ([] : List (List Char))
            next.start_time).map SubtitleChunk.text ≠ [] := by
          simpa using hrec
        rw [joinSep_cons_of_ne_nil ' ' _ _ hmapne,
          ih ([] : List (List Char)) next.start_time (by simp)]
        simp only [List.nil_append, List.map_cons]
        rw [show cur ++ t.word :: next.word :: List.map WordTiming.word rest' =
            (cur ++ [t.word]) ++ (next.word :: List.map WordTiming.word rest') by simp]
        conv_rhs => rw [joinSep_append ' ' (cur ++ [t.word])
          (next.word :: List.map WordTiming.word rest') (by simp) (by simp)]

theorem groupChunks_word_count (ts : List WordTiming) :
    ∀ cur cs,
      (∀ w ∈ cur, GoodWord w) →
      (∀ t ∈ ts, GoodWord t.word) →
      cur.length + 1 ≤ SUBTITLE_MAX_WORDS_PER_CHUNK →
      ∀ c ∈ groupChunks ts cur cs,
        (splitWs c.text).length ≤ SUBTITLE_MAX_WORDS_PER_CHUNK := by
  induction ts with
  | nil => intro _ _ _ _ _ c hc; simp [groupChunks] at hc
  | cons t rest ih =>
    intro cur cs hcur hts hlen c hc
    have htw : GoodWord t.word := hts t (List.mem_cons_self _ _)
    have hcur' : ∀ x ∈ cur ++ [t.word], GoodWord x := goodWord_append cur t.word hcur htw
    have hsplit : splitWs (joinSep ' ' (cur ++ [t.word])) = cur ++ [t.word] :=
      splitWs_joinSep _ (fun x hx => hcur' x hx)
    have hchunklen : (splitWs (joinSep ' ' (cur ++ [t.word]))).length ≤
        SUBTITLE_MAX_WORDS_PER_CHUNK := by
      rw [hsplit]; simpa using hlen
    cases rest with
    | nil =>
      rw [groupChunks_cons_nil] at hc
      simp only [List.mem_singleton] at hc
      subst hc
      exact hchunklen
    | cons next rest' =>
      have hts' : ∀ x ∈ next :: rest', GoodWord x.word :=
        fun x hx => hts x (List.mem_cons_of_mem _ hx)
      rw [groupChunks_cons_cons] at hc
      cases hend : shouldEndChunk t (next :: rest') (cur ++ [t.word]) cs
      · rw [hend] at hc
        simp only [Bool.false_eq_true, if_false] at hc
        have hlt := (shouldEndChunk_false t _ _ _ hend).2.2.1
        refine ih _ _ hcur' hts' ?_ c hc
        simpa using hlt
      · rw [hend] at hc
        simp only [if_true] at hc
        rcases List.mem_cons.mp hc with h | h
        · subst h; exact hchunklen
        · refine ih ([] : List (List Char)) next.start_time
            (by intro x hx; simp at hx) hts' ?_ c h
          simp [SUBTITLE_MAX_WORDS_PER_CHUNK]

theorem groupChunks_all_zero (ts : List WordTiming) :
    ∀ cur, (∀ t ∈ ts, t.start_time = 0 ∧ t.end_time = 0) →
      ∀ c ∈ groupChunks ts cur 0,
        c.start_time = 0 ∧ c.end_time = 0 ∧ c.duration = 0 := by
  induction ts with
  | nil => intro _ _ c hc; simp [groupChunks] at hc
  | cons t rest ih =>
    intro cur hts c hc
    have hte : t.end_time = 0 := (hts t (List.mem_cons_self _ _)).2
    cases rest with
    | nil =>
      rw [groupChunks_cons_nil] at hc
      simp only [List.mem_singleton] at hc
      subst hc
      refine ⟨rfl, hte, ?_⟩
      show t.end_time - 0 = 0
      rw [hte]; ring
    | cons next rest' =>
      have hts' : ∀ x ∈ next :: rest', x.start_time = 0 ∧ x.end_time = 0 :=
        fun x hx => hts x (List.mem_cons_of_mem _ hx)
      have hnext0 : next.start_time = 0 := (hts' next (List.mem_cons_self _ _)).1
      rw [groupChunks_cons_cons, hnext0] at hc
      cases hend : shouldEndChunk t (next :: rest') (cur ++ [t.word]) 0
      · rw [hend] at hc
        simp only [Bool.false_eq_true, if_false] at hc
        exact ih _ hts' c hc
      · rw [hend] at hc
        simp only [if_true] at hc
        rcases List.mem_cons.mp hc with h | h
        · subst h
          refine ⟨rfl, hte, ?_⟩
          show t.end_time - 0 = 0
          rw [hte]; ring
        · exact ih ([] : List (List Char)) hts' c h

theorem chain_le_of_chunkAdj (l : List SubtitleChunk)
    (h1 : List.Chain' chunkAdj l)
    (h2 : ∀ c ∈ l, c.start_time ≤ c.end_time) :
    List.Chain' (fun a b : SubtitleChunk => a.start_time ≤ b.start_time) l := by
  induction l with
  | nil => simp
  | cons a l ih =>
    rw [List.chain'_cons'] at h1
    rw [List.chain'_cons']
    constructor
    · intro y hy
      have := h1.1 y hy
      rw [show y.start_time = a.end_time from this]
      exact h2 a (List.mem_cons_self _ _)
    · exact ih h1.2 (fun c hc => h2 c (List.mem_cons_of_mem _ hc))

/-! ## Caption word-wrap (`SubtitleService._wrap_text`)

The PIL `draw.textbbox` width of a rendered line is abstracted as a
`measure : List Char → Int` function applied to the joined test line
(`bbox[2] - bbox[0]`); the font and draw handle are folded into it. -/

/-- The word-wrap loop of `_wrap_text`, returning the lines as word
groups (the source joins each group with spaces as it is appended). -/
def wrapAux (measure : List Char → Int) (maxWidth : Int) :
    List (List Char) → List (List Char) → List (List (List Char))
  | [], currentLine => if currentLine.isEmpty then [] else [currentLine]
  | w :: ws, currentLine =>
    if measure (joinSep ' ' (currentLine ++ [w])) ≤ maxWidth then
      wrapAux measure maxWidth ws (currentLine ++ [w])
    else if currentLine.isEmpty then [w] :: wrapAux measure maxWidth ws []
    else currentLine :: wrapAux measure maxWidth ws [w]

/-- The wrapped lines of `_wrap_text` as word groups. -/
def wrapGroups (measure : List Char → Int) (maxWidth : Int) (text : List Char) :
    List (List (List Char)) :=
  wrapAux measure maxWidth (splitWs text) []

/-- `SubtitleService._wrap_text`: the wrapped lines joined with newlines. -/
def _wrap_text (measure : List Char → Int) (maxWidth : Int) (text : List Char) :
    List Char :=
  joinSep (Char.ofNat 10) ((wrapGroups measure maxWidth text).map (joinSep ' '))

/-- Monotonicity of a width measure: a word never measures wider than a
line containing it (true of any real text-width function). -/
def MeasureMono (measure : List Char → Int) : Prop :=
  ∀ (pre suf : List (List Char)) (w : List Char),
    measure w ≤ measure (joinSep ' ' (pre ++ w :: suf))

theorem wrapAux_flatten (measure : List Char → Int) (maxWidth : Int) :
    ∀ ws cur, (wrapAux measure maxWidth ws cur).flatten = cur ++ ws := by
  intro ws
  induction ws with
  | nil =>
    intro cur
    simp only [wrapAux]
    cases hcur : cur.isEmpty
    · simp
    · have : cur = [] := List.isEmpty_iff.mp hcur
      simp [this]
  | cons w ws' ih =>
    intro cur
    simp only [wrapAux]
    split
    · rw [ih]; simp
    · split
      · rename_i hcur _
        have : cur = [] := List.isEmpty_iff.mp (by assumption)
        simp [this, ih]
      · simp [ih]

theorem wrapAux_mem_ne_nil (measure : List Char → Int) (maxWidth : Int) :
    ∀ ws cur g, g ∈ wrapAux measure maxWidth ws cur → g ≠ [] := by
  intro ws
  induction ws with
  | nil =>
    intro cur g hg
    revert hg
    simp only [wrapAux]
    cases hcur : cur.isEmpty
    · intro hg
      rw [List.mem_singleton.mp hg]
      intro hcon
      rw [hcon] at hcur
      simp at hcur
    · intro hg; simp at hg
  | cons w ws' ih =>
    intro cur g hg
    revert hg
    simp only [wrapAux]
    split
    · exact ih _ g
    · split
      · intro hg
        rcases List.mem_cons.mp hg with h | h
        · rw [h]; simp
        · exact ih _ g h
      · rename_i hcur
        intro hg
        rcases List.mem_cons.mp hg with h | h
        · rw [h]
          intro hcon
          rw [hcon] at hcur
          simp at hcur
        · exact ih _ g h

theorem wrapAux_single_mem (measure : List Char → Int) (maxWidth : Int)
    (hm : MeasureMono measure) (x : List Char) (hx : maxWidth < measure x) :
    ∀ ws, [x] ∈ wrapAux measure maxWidth ws [x] := by
  intro ws
  cases ws with
  | nil => simp [wrapAux]
  | cons w ws' =>
    simp only [wrapAux]
    have h1 : measure x ≤ measure (joinSep ' ' ([x] ++ [w])) := hm [] [w] x
    rw [if_neg (by omega)]
    rw [if_neg (by simp)]
    exact List.mem_cons_self _ _

theorem wrapAux_wide_word_mem (measure : List Char → Int) (maxWidth : Int)
    (hm : MeasureMono measure) :
    ∀ ws cur w, w ∈ ws → maxWidth < measure w →
      [w] ∈ wrapAux measure maxWidth ws cur := by
  intro ws
  induction ws with
  | nil => intro _ w h; simp at h
  | cons u ws' ih =>
    intro cur w hmem hw
    rcases List.mem_cons.mp hmem with h | h
    · subst h
      simp only [wrapAux]
      have h1 : measure w ≤ measure (joinSep ' ' (cur ++ [w])) := hm cur [] w
      rw [if_neg (by omega)]
      cases hcur : cur.isEmpty
      · rw [if_neg (by simp [hcur])]
        exact List.mem_cons_of_mem _ (wrapAux_single_mem measure maxWidth hm w hw ws')
      · rw [if_pos (by simp [hcur])]
        exact List.mem_cons_self _ _
    · simp only [wrapAux]
      split
      · exact ih _ w h hw
      · split
        · exact List.mem_cons_of_mem _ (ih _ w h hw)
        · exact List.mem_cons_of_mem _ (ih _ w h hw)

/-! ## Subtitle clip generation

`generate_subtitle_clips` and the moviepy text fallback
`_create_text_subtitles`. The class's attribute table is the list of
methods actually defined in the source; an attribute access on a missing
name is modelled as `Except.error` carrying the missing name
(Python's AttributeError). -/

/-- A `TextClip` produced by the moviepy fallback path: the wrapped text
plus timing. -/
structure TextClip where
  text : List Char
  fontsize : Nat
  start_time : ℚ
  duration : ℚ
deriving Repr, DecidableEq

/-- The methods defined on `SubtitleService` in the source file. -/
def subtitleServiceMethods : List String :=
  [("__init__"), ("create_subtitle_chunks"), ("generate_subtitle_clips"),
   ("_create_pil_subtitles"), ("_create_text_subtitles"), ("_wrap_text"),
   ("_get_line_height"), ("_create_subtitle_image"), ("_load_font"),
   ("_estimate_word_duration"), ("cleanup_temp_files")]

/-- Attribute lookup on the service object: an undefined name raises
(modelled as `Except.error` with the attribute name). -/
def getMethod (name : String) : Except String Unit :=
  if subtitleServiceMethods.contains name then Except.ok () else Except.error name

/-- The body of the per-chunk `try` block in `_create_text_subtitles`:
it first looks up `self._wrap_text_for_width` and then would build a
`TextClip` from the wrapped text. `wrapFn` stands for whatever that method
would compute if it existed. -/
def textSubtitleBody (wrapFn : List Char → Int → List Char) (videoWidth : Int)
    (chunk : SubtitleChunk) : Except String TextClip := do
  let _ ← getMethod ("_wrap_text_for_width")
  pure ⟨wrapFn chunk.text videoWidth, SUBTITLE_FONTSIZE, chunk.start_time,
    chunk.duration⟩

/-- `SubtitleService._create_text_subtitles`: per-chunk try/except, a
failing chunk is skipped. -/
def _create_text_subtitles (wrapFn : List Char → Int → List Char)
    (videoWidth : Int) (chunks : List SubtitleChunk) : List TextClip :=
  chunks.foldl
    (fun acc chunk =>
      match textSubtitleBody wrapFn videoWidth chunk with
      | Except.ok clip => acc ++ [clip]
      | Except.error _ => acc)
    []

/-- `SubtitleService.generate_subtitle_clips`: returns `[]` when moviepy is
unavailable; otherwise runs the PIL or text path inside a try block whose
failure yields the untouched empty clip list. -/
def generate_subtitle_clips {Clip : Type} (moviepy_available pil_available : Bool)
    (createPilSubtitles createTextSubtitles :
      List SubtitleChunk → Except String (List Clip))
    (chunks : List SubtitleChunk) : List Clip :=
  if !moviepy_available then []
  else
    match (if pil_available then createPilSubtitles chunks
           else createTextSubtitles chunks) with
    | Except.ok clips => clips
    | Except.error _ => []

theorem textSubtitleBody_error (wrapFn : List Char → Int → List Char)
    (videoWidth : Int) (chunk : SubtitleChunk) :
    textSubtitleBody wrapFn videoWidth chunk =
      Except.error (("_wrap_text_for_width") : String) := rfl

theorem create_text_subtitles_nil (wrapFn : List Char → Int → List Char)
    (videoWidth : Int) (chunks : List SubtitleChunk) :
    _create_text_subtitles wrapFn videoWidth chunks = [] := by
  unfold _create_text_subtitles
  have hgen : ∀ (acc : List TextClip),
      chunks.foldl
        (fun acc chunk =>
          match textSubtitleBody wrapFn videoWidth chunk with
          | Except.ok clip => acc ++ [clip]
          | Except.error _ => acc)
        acc = acc := by
    induction chunks with
    | nil => intro acc; rfl
    | cons c l ih =>
      intro acc
      rw [List.foldl_cons, textSubtitleBody_error]
      exact ih acc
  exact hgen []

/-! ## Remaining helper lemmas -/

theorem scaledTimings_goodWord (text : List Char) (d : ℚ) :
    ∀ t ∈ scaledTimings (splitWs text) d, GoodWord t.word := by
  intro t ht
  have hmem : t.word ∈ splitWs text := by
    rw [← scaledTimings_map_word (splitWs text) d]
    exact List.mem_map_of_mem _ ht
  exact splitWs_sound text t.word hmem

theorem joinSep_snoc_ne_nil (cur : List (List Char)) (w : List Char) (hw : w ≠ []) :
    joinSep ' ' (cur ++ [w]) ≠ [] := by
  cases cur with
  | nil => simpa using hw
  | cons x cur' =>
    rw [List.cons_append, joinSep_cons_of_ne_nil ' ' x _ (by simp)]
    simp

theorem groupChunks_text_ne_nil (ts : List WordTiming) :
    ∀ cur cs, (∀ t ∈ ts, t.word ≠ []) →
      ∀ c ∈ groupChunks ts cur cs, c.text ≠ [] := by
  induction ts with
  | nil => intro _ _ _ c hc; simp [groupChunks] at hc
  | cons t rest ih =>
    intro cur cs hts c hc
    have htw : t.word ≠ [] := hts t (List.mem_cons_self _ _)
    cases rest with
    | nil =>
      rw [groupChunks_cons_nil] at hc
      simp only [List.mem_singleton] at hc
      subst hc
      exact joinSep_snoc_ne_nil cur t.word htw
    | cons next rest' =>
      have hts' : ∀ x ∈ next :: rest', x.word ≠ [] :=
        fun x hx => hts x (List.mem_cons_of_mem _ hx)
      rw [groupChunks_cons_cons] at hc
      cases hend : shouldEndChunk t (next :: rest') (cur ++ [t.word]) cs
      · rw [hend] at hc
        simp only [Bool.false_eq_true, if_false] at hc
        exact ih _ _ hts' c hc
      · rw [hend] at hc
        simp only [if_true] at hc
        rcases List.mem_cons.mp hc with h | h
        · subst h; exact joinSep_snoc_ne_nil cur t.word htw
        · exact ih _ _ hts' c h

/-! ## The claims -/

/-- Claim C1: for every non-empty whitespace-tokenized input text and
every `total_duration > 0`, the chunk durations returned by
`create_subtitle_chunks` sum exactly to `total_duration` (exact rational
arithmetic), and the last chunk's `end_time` equals `total_duration`. -/
theorem claim_c1_total_duration (text : List Char) (d : ℚ)
    (hw : splitWs text ≠ []) (_hd : 0 < d) :
    ((create_subtitle_chunks text d).map SubtitleChunk.duration).sum = d ∧
    ∃ c, (create_subtitle_chunks text d).getLast? = some c ∧ c.end_time = d := by
  obtain ⟨tl, hlast, hend⟩ := scaledTimings_getLast (splitWs text) d hw
  have hchain := scaledTimings_chain (splitWs text) d
  constructor
  · unfold create_subtitle_chunks
    rw [groupChunks_sum_duration (scaledTimings (splitWs text) d) [] 0 tl hchain
      hlast, hend, sub_zero]
  · obtain ⟨c, h1, h2⟩ :=
      groupChunks_getLast (scaledTimings (splitWs text) d) [] 0 tl hlast
    exact ⟨c, h1, by rw [h2, hend]⟩

/-- Witness for C1 at the input `"hello"` with `total_duration = 1`. -/
theorem claim_c1_total_duration_witness :
    splitWs (("hello").toList) ≠ [] ∧ (0 : ℚ) < 1 ∧
    (((create_subtitle_chunks (("hello").toList) 1).map
        SubtitleChunk.duration).sum = 1 ∧
      ∃ c, (create_subtitle_chunks (("hello").toList) 1).getLast? = some c ∧
        c.end_time = 1) :=
  ⟨by decide, by norm_num,
    claim_c1_total_duration (("hello").toList) 1 (by decide) (by norm_num)⟩

/-- Claim C2: for every input text and (nonnegative) total duration, every
chunk has `start_time ≤ end_time`, the chunks come in non-decreasing
`start_time` order, and each chunk's `start_time` equals the preceding
chunk's `end_time` exactly. (`total_duration` is a measured audio duration
in seconds, hence nonnegative.) -/
theorem claim_c2_ordering (text : List Char) (d : ℚ) (hd : 0 ≤ d) :
    (∀ c ∈ create_subtitle_chunks text d, c.start_time ≤ c.end_time) ∧
    List.Chain' (fun a b : SubtitleChunk => a.start_time ≤ b.start_time)
      (create_subtitle_chunks text d) ∧
    List.Chain' chunkAdj (create_subtitle_chunks text d) := by
  have hchain := scaledTimings_chain (splitWs text) d
  have hmem := scaledTimings_start_le_end (splitWs text) d hd
  have hcs : ∀ t rest', scaledTimings (splitWs text) d = t :: rest' →
      (0 : ℚ) ≤ t.start_time := by
    intro t rest' heq
    have hw : splitWs text ≠ [] := by
      intro hnil
      rw [hnil] at heq
      simp [scaledTimings, cumulativeTime, buildTimings] at heq
    obtain ⟨t0, rest0, heq0, hstart0⟩ := scaledTimings_head (splitWs text) d hw
    rw [heq0] at heq
    injection heq with h1 _
    rw [← h1, hstart0]
  have hle : ∀ c ∈ create_subtitle_chunks text d, c.start_time ≤ c.end_time := by
    intro c hc
    unfold create_subtitle_chunks at hc
    exact (groupChunks_start_le_end _ [] 0 hchain hmem hcs c hc).1
  refine ⟨hle, ?_, ?_⟩
  · unfold create_subtitle_chunks
    refine chain_le_of_chunkAdj _ (groupChunks_chain _ [] 0 hchain) ?_
    intro c hc
    exact (groupChunks_start_le_end _ [] 0 hchain hmem hcs c hc).1
  · unfold create_subtitle_chunks
    exact groupChunks_chain _ [] 0 hchain

/-- Witness for C2 at the input `"hi there"` with `total_duration = 2`. -/
theorem claim_c2_ordering_witness :
    (0 : ℚ) ≤ 2 ∧
    ((∀ c ∈ create_subtitle_chunks (("hi there").toList) 2,
        c.start_time ≤ c.end_time) ∧
      List.Chain' (fun a b : SubtitleChunk => a.start_time ≤ b.start_time)
        (create_subtitle_chunks (("hi there").toList) 2) ∧
      List.Chain' chunkAdj (create_subtitle_chunks (("hi there").toList) 2)) :=
  ⟨by norm_num, claim_c2_ordering (("hi there").toList) 2 (by norm_num)⟩

/-- Claim C3 counterexample: the token `"today."` contains `'.'`, yet the
estimator adds no pause for it: the punctuation test runs on the
lower-cased *stripped* word (`"today"`), so the estimate equals the
pause-free value `0.3` instead of `0.3 + 0.2`. -/
theorem claim_c3_counterexample :
    containsPunct (("today.").toList) = true ∧
    _estimate_word_duration (("today.").toList) = 3 / 10 ∧
    durationPrePause (("today.").toList) = 3 / 10 ∧
    ¬ _estimate_word_duration (("today.").toList) =
        durationPrePause (("today.").toList) + 2 / 10 := by decide

/-- Claim C3 (amended): the fixed 0.2s pause is added exactly when the
lower-cased, punctuation-stripped token still contains one of `. , ! ? ; :`
(i.e. interior punctuation); tokens whose punctuation is only
leading/trailing receive no pause. -/
theorem claim_c3_pause_post_strip (word : List Char) :
    _estimate_word_duration word =
      durationPrePause word +
        (if containsPunct (pyStrip (word.map Char.toLower)) then 2 / 10 else 0) := by
  simp only [_estimate_word_duration, durationPrePause]
  by_cases h : (pyStrip (word.map Char.toLower)).isEmpty = true
  · rw [if_pos h, if_pos h]
    have hnil : pyStrip (word.map Char.toLower) = [] := List.isEmpty_iff.mp h
    rw [hnil]
    simp [containsPunct]
  · rw [if_neg h, if_neg h]
    by_cases hp : containsPunct (pyStrip (word.map Char.toLower)) = true
    · rw [if_pos hp, if_pos hp]
    · rw [if_neg hp, if_neg hp, add_zero]

/-- Claim C4 counterexample: at `total_duration = 0` with non-empty text the
chunker *does* scale — by factor 0 — so the returned chunk carries duration
0, not the raw heuristic value `0.3`. -/
theorem claim_c4_counterexample :
    create_subtitle_chunks (("hello").toList) 0 =
      [⟨("hello").toList, 0, 0, 0⟩] ∧
    _estimate_word_duration (("hello").toList) = 3 / 10 ∧
    ¬ (0 : ℚ) = 3 / 10 := by decide

/-- Claim C4 (amended): at `total_duration = 0` with non-empty text, the
scale factor is `0 / cumulative = 0`, so chunks are still returned (no
division-by-zero: the guard tests the heuristic total, not
`total_duration`) but every chunk's `start_time`, `end_time`, and
`duration` are 0 — not the raw heuristic timings. -/
theorem claim_c4_zero_duration (text : List Char) (hw : splitWs text ≠ []) :
    create_subtitle_chunks text 0 ≠ [] ∧
    ∀ c ∈ create_subtitle_chunks text 0,
      c.start_time = 0 ∧ c.end_time = 0 ∧ c.duration = 0 := by
  constructor
  · unfold create_subtitle_chunks
    exact groupChunks_ne_nil _ [] 0 (scaledTimings_ne_nil _ 0 hw)
  · intro c hc
    unfold create_subtitle_chunks at hc
    refine groupChunks_all_zero _ [] ?_ c hc
    intro t ht
    exact ⟨(scaledTimings_zero _ hw t ht).1, (scaledTimings_zero _ hw t ht).2.1⟩

/-- Witness for the amended C4 at the input `"hello"`. -/
theorem claim_c4_zero_duration_witness :
    splitWs (("hello").toList) ≠ [] ∧
    (create_subtitle_chunks (("hello").toList) 0 ≠ [] ∧
      ∀ c ∈ create_subtitle_chunks (("hello").toList) 0,
        c.start_time = 0 ∧ c.end_time = 0 ∧ c.duration = 0) :=
  ⟨by decide, claim_c4_zero_duration (("hello").toList) (by decide)⟩

/-- Claim C5 counterexample: on `"hello a hello"` with
`total_duration = 5.64` the first emitted chunk holds two words
(`"hello a"`) and spans `3.24 s > 3.0 s`: the duration-threshold test runs
only after a word is appended, so multi-word chunks can exceed the
threshold. -/
theorem claim_c5_counterexample :
    create_subtitle_chunks (("hello a hello").toList) (141 / 25) =
      [⟨("hello a").toList, 0, 81 / 25, 81 / 25⟩,
       ⟨("hello").toList, 81 / 25, 141 / 25, 12 / 5⟩] ∧
    (splitWs (("hello a").toList)).length = 2 ∧
    SUBTITLE_CHUNK_DURATION < 81 / 25 := by decide

/-- Claim C5 (amended): no chunk ever holds more than the configured
maximum of 6 words; however, a chunk's duration may exceed the configured
3.0 s threshold even for multi-word chunks (the threshold is only checked
after appending each word, and the final word always closes a chunk), so
exceeding the threshold is not limited to single-word chunks. -/
theorem claim_c5_word_count (text : List Char) (d : ℚ) :
    (∀ c ∈ create_subtitle_chunks text d,
      (splitWs c.text).length ≤ SUBTITLE_MAX_WORDS_PER_CHUNK) ∧
    ∃ text' d' c, c ∈ create_subtitle_chunks text' d' ∧
      2 ≤ (splitWs c.text).length ∧ SUBTITLE_CHUNK_DURATION < c.duration := by
  constructor
  · intro c hc
    unfold create_subtitle_chunks at hc
    refine groupChunks_word_count _ [] 0 ?_ (scaledTimings_goodWord text d)
      (by decide) c hc
    intro x hx
    simp at hx
  · refine ⟨("hello a hello").toList, 141 / 25,
      ⟨("hello a").toList, 0, 81 / 25, 81 / 25⟩, ?_, ?_, ?_⟩ <;> decide

/-- Witness for the amended C5: the two-word chunk of the counterexample
input still respects the 6-word maximum. -/
theorem claim_c5_word_count_witness :
    (⟨("hello a").toList, 0, 81 / 25, 81 / 25⟩ : SubtitleChunk) ∈
      create_subtitle_chunks (("hello a hello").toList) (141 / 25) ∧
    (splitWs (("hello a").toList)).length ≤ SUBTITLE_MAX_WORDS_PER_CHUNK :=
  ⟨by decide,
    (claim_c5_word_count (("hello a hello").toList) (141 / 25)).1
      (⟨("hello a").toList, 0, 81 / 25, 81 / 25⟩ : SubtitleChunk) (by decide)⟩

/-- Claim C6: re-joining the word-wrap's lines with spaces reproduces the
original chunk text (words joined by single spaces) for every measure and
width budget; and for any monotone width measure, a word wider than the
budget occupies a line of its own (no mid-word breaking). -/
theorem claim_c6_wrap_round_trip :
    (∀ (measure : List Char → Int) (maxWidth : Int) (ws : List (List Char)),
      (∀ w ∈ ws, GoodWord w) →
      joinSep ' ' ((wrapGroups measure maxWidth (joinSep ' ' ws)).map
          (joinSep ' ')) =
        joinSep ' ' ws) ∧
    (∀ (measure : List Char → Int) (maxWidth : Int) (text w : List Char),
      MeasureMono measure → w ∈ splitWs text → maxWidth < measure w →
      [w] ∈ wrapGroups measure maxWidth text) := by
  constructor
  · intro measure maxWidth ws hws
    unfold wrapGroups
    rw [splitWs_joinSep ws (fun w hw => hws w hw)]
    rw [joinSep_map_joinSep _ (fun g hg => wrapAux_mem_ne_nil measure maxWidth ws [] g hg)]
    rw [wrapAux_flatten measure maxWidth]
    rfl
  · intro measure maxWidth text w hm hmem hwide
    unfold wrapGroups
    exact wrapAux_wide_word_mem measure maxWidth hm (splitWs text) [] w hmem hwide

/-- Witness for C6: a concrete round trip under the length measure, and a
concrete wide word isolated on its own line under a constant measure. -/
theorem claim_c6_wrap_round_trip_witness :
    (∀ w ∈ [("hi").toList, ("there").toList], GoodWord w) ∧
    joinSep ' ' ((wrapGroups (fun s => (s.length : Int)) 5
        (joinSep ' ' [("hi").toList, ("there").toList])).map (joinSep ' ')) =
      joinSep ' ' [("hi").toList, ("there").toList] ∧
    [("world").toList] ∈ wrapGroups (fun _ => (0 : Int)) (-1)
      (("hi world").toList) :=
  ⟨by decide,
    claim_c6_wrap_round_trip.1 (fun s => (s.length : Int)) 5
      [("hi").toList, ("there").toList] (by decide),
    claim_c6_wrap_round_trip.2 (fun _ => (0 : Int)) (-1) (("hi world").toList)
      (("world").toList) (fun _ _ _ => le_refl 0) (by decide) (by decide)⟩

/-- Claim C7: on `"Breaking news today. Markets rally."` with
`total_duration = 4`, the estimator gives each of the 5 tokens a nonzero
duration, a chunk boundary is forced right after `"today."` although the
accumulated span `18/7 s` is below the 3.0 s threshold, and the final
chunk ends exactly at 4. -/
theorem claim_c7_breaking_news :
    (splitWs (("Breaking news today. Markets rally.").toList)).map
        _estimate_word_duration =
      [9 / 25, 3 / 20, 3 / 10, 3 / 10, 3 / 20] ∧
    ([(9 : ℚ) / 25, 3 / 20, 3 / 10, 3 / 10, 3 / 20].all
        fun q => decide (0 < q)) = true ∧
    create_subtitle_chunks (("Breaking news today. Markets rally.").toList) 4 =
      [⟨("Breaking news today.").toList, 0, 18 / 7, 18 / 7⟩,
       ⟨("Markets rally.").toList, 18 / 7, 4, 10 / 7⟩] ∧
    (18 : ℚ) / 7 < SUBTITLE_CHUNK_DURATION := by decide

/-- Claim C8: empty input text yields an empty chunk list for every
duration, and an unavailable moviepy backend makes
`generate_subtitle_clips` return an empty list for every chunk list
instead of raising. -/
theorem claim_c8_degenerate :
    (∀ d : ℚ, create_subtitle_chunks (("").toList) d = []) ∧
    (∀ (Clip : Type) (pil_available : Bool)
        (createPilSubtitles createTextSubtitles :
          List SubtitleChunk → Except String (List Clip))
        (chunks : List SubtitleChunk),
      generate_subtitle_clips false pil_available createPilSubtitles
        createTextSubtitles chunks = []) :=
  ⟨fun _ => rfl, fun _ _ _ _ _ => rfl⟩

/-- Claim C9: the chunk texts, joined with single spaces in order, exactly
reproduce the single-space join of the tokenized input; every input word
lands in exactly one chunk in order, and no chunk text is empty. -/
theorem claim_c9_partition (text : List Char) (d : ℚ) :
    joinSep ' ' ((create_subtitle_chunks text d).map SubtitleChunk.text) =
      joinSep ' ' (splitWs text) ∧
    ((create_subtitle_chunks text d).map (fun c => splitWs c.text)).flatten =
      splitWs text ∧
    ((create_subtitle_chunks text d).all fun c => !c.text.isEmpty) = true := by
  by_cases hw : splitWs text = []
  · have h0 : create_subtitle_chunks text d = [] := by
      unfold create_subtitle_chunks
      rw [hw]
      rfl
    rw [h0, hw]
    exact ⟨rfl, rfl, rfl⟩
  · have hne := scaledTimings_ne_nil (splitWs text) d hw
    have hgw := scaledTimings_goodWord text d
    refine ⟨?_, ?_, ?_⟩
    · unfold create_subtitle_chunks
      rw [groupChunks_join_text _ [] 0 hne, List.nil_append, scaledTimings_map_word]
    · unfold create_subtitle_chunks
      rw [groupChunks_flatten _ [] 0 hne (by intro x hx; simp at hx) hgw,
        List.nil_append, scaledTimings_map_word]
    · rw [List.all_eq_true]
      intro c hc
      unfold create_subtitle_chunks at hc
      have := groupChunks_text_ne_nil _ [] 0 (fun t ht => (hgw t ht).1) c hc
      simpa using this

/-- Claim C10: `_wrap_text_for_width` is not among the methods defined on
`SubtitleService`, so every per-chunk body of the moviepy text fallback
raises, the per-chunk handler swallows it for every chunk, and
`generate_subtitle_clips` (moviepy available, PIL unavailable) returns an
empty list for every chunk list. -/
theorem claim_c10_missing_wrap_method :
    (subtitleServiceMethods.contains (("_wrap_text_for_width") : String)) =
      false ∧
    (∀ (wrapFn : List Char → Int → List Char) (videoWidth : Int)
        (chunk : SubtitleChunk),
      textSubtitleBody wrapFn videoWidth chunk =
        Except.error (("_wrap_text_for_width") : String)) ∧
    (∀ (wrapFn : List Char → Int → List Char) (videoWidth : Int)
        (chunks : List SubtitleChunk),
      _create_text_subtitles wrapFn videoWidth chunks = []) ∧
    (∀ (createPilSubtitles : List SubtitleChunk → Except String (List TextClip))
        (wrapFn : List Char → Int → List Char) (videoWidth : Int)
        (chunks : List SubtitleChunk),
      generate_subtitle_clips true false createPilSubtitles
        (fun cs => Except.ok (_create_text_subtitles wrapFn videoWidth cs))
        chunks = []) := by
  refine ⟨rfl, textSubtitleBody_error, create_text_subtitles_nil, ?_⟩
  intro f wrapFn videoWidth chunks
  simp [generate_subtitle_clips, create_text_subtitles_nil]

end Newscrypt
